import Mathlib

/-!
Shallow embedding of the pep425 repository (brettcannon/pep425).

Python strings are modelled as `List Char`; Python `str(int)` as `natToChars`;
Python sets as `Finset`.  Environment introspection (sysconfig variables,
`platform.mac_ver`, `distutils.util.get_platform`, the glibc probe) is passed
in as explicit arguments, matching the spec's "injected environment
descriptor" view.  Everything else is translated directly from the source
files `src/pep425.py` and `src/pep425/_mac.py`.
-/

/-- Character list of a string literal (helper for writing Python string literals). -/
def chars (s : String) : List Char := s.data

/-- ASCII lowercasing of one character, as Python `str.lower` acts on ASCII data. -/
def lowerChar (c : Char) : Char :=
  if c = 'A' then 'a' else if c = 'B' then 'b' else if c = 'C' then 'c'
  else if c = 'D' then 'd' else if c = 'E' then 'e' else if c = 'F' then 'f'
  else if c = 'G' then 'g' else if c = 'H' then 'h' else if c = 'I' then 'i'
  else if c = 'J' then 'j' else if c = 'K' then 'k' else if c = 'L' then 'l'
  else if c = 'M' then 'm' else if c = 'N' then 'n' else if c = 'O' then 'o'
  else if c = 'P' then 'p' else if c = 'Q' then 'q' else if c = 'R' then 'r'
  else if c = 'S' then 's' else if c = 'T' then 't' else if c = 'U' then 'u'
  else if c = 'V' then 'v' else if c = 'W' then 'w' else if c = 'X' then 'x'
  else if c = 'Y' then 'y' else if c = 'Z' then 'z' else c

/-- Python `s.lower()`. -/
def lower (s : List Char) : List Char := s.map lowerChar

/-- Decimal digit character for a digit value (Python digit rendering). -/
def digitChar (d : Nat) : Char :=
  match d with
  | 0 => '0' | 1 => '1' | 2 => '2' | 3 => '3' | 4 => '4'
  | 5 => '5' | 6 => '6' | 7 => '7' | 8 => '8' | 9 => '9'
  | _ => '*'

/-- Numeric value of a decimal digit character (left inverse of `digitChar`). -/
def digitVal (c : Char) : Nat :=
  match c with
  | '0' => 0 | '1' => 1 | '2' => 2 | '3' => 3 | '4' => 4
  | '5' => 5 | '6' => 6 | '7' => 7 | '8' => 8 | '9' => 9
  | _ => 0

/-- Fuel-driven digit expansion: digits of `n`, most significant first
(empty for `n = 0`). -/
def natToCharsAux : Nat → Nat → List Char
  | 0, _ => []
  | fuel + 1, n => if n = 0 then [] else natToCharsAux fuel (n / 10) ++ [digitChar (n % 10)]

/-- Python `str(n)` for a natural number: decimal digits, `"0"` for zero. -/
def natToChars (n : Nat) : List Char :=
  if n = 0 then ['0'] else natToCharsAux (n + 1) n

/-- Python `s.split(sep)` for a one-character separator `sep`. -/
def splitChar (sep : Char) : List Char → List (List Char)
  | [] => [[]]
  | c :: cs =>
    if c = sep then [] :: splitChar sep cs
    else
      match splitChar sep cs with
      | [] => [[c]]
      | r :: rs => (c :: r) :: rs

/-- Split off the segment before the first occurrence of `sep`, if any. -/
def splitFirst (sep : Char) : List Char → Option (List Char × List Char)
  | [] => none
  | c :: cs =>
    if c = sep then some ([], cs)
    else (splitFirst sep cs).map (fun ab => (c :: ab.1, ab.2))

/-- Python `s.split(sep, maxsplit)` for a one-character separator. -/
def splitCharMax (sep : Char) : Nat → List Char → List (List Char)
  | 0, s => [s]
  | maxsplit + 1, s =>
    match splitFirst sep s with
    | none => [s]
    | some ab => ab.1 :: splitCharMax sep maxsplit ab.2

/-- Python `"-".join(parts)`. -/
def joinDash : List (List Char) → List Char
  | [] => []
  | [x] => x
  | x :: xs => x ++ '-' :: joinDash xs

/-- Python `s.rindex(c, 0, hi)` as an `Option`: the largest index `< hi`
holding `c`, scanning downward from `hi - 1`. -/
def rindexBefore (c : Char) (s : List Char) : Nat → Option Nat
  | 0 => none
  | k + 1 => if s.get? k = some c then some k else rindexBefore c s k

/-- Fuel-driven replacement of every occurrence of `pat` by `rep`
(all source call sites use a non-empty `pat`). -/
def replaceFuel (pat rep : List Char) : Nat → List Char → List Char
  | 0, s => s
  | _ + 1, [] => []
  | fuel + 1, c :: cs =>
    if pat.isPrefixOf (c :: cs) && !pat.isEmpty then
      rep ++ replaceFuel pat rep fuel ((c :: cs).drop pat.length)
    else c :: replaceFuel pat rep fuel cs

/-- Python `s.replace(pat, rep)` for non-empty `pat`. -/
def pyreplace (s pat rep : List Char) : List Char := replaceFuel pat rep s.length s

/-- Python tuple comparison `a < b` on pairs of ints. -/
def tuple_lt (a b : Nat × Nat) : Bool := a.1 < b.1 || (a.1 = b.1 && a.2 < b.2)

/-- Python tuple comparison `a ≤ b` on pairs of ints. -/
def tuple_le (a b : Nat × Nat) : Bool := a.1 < b.1 || (a.1 = b.1 && a.2 ≤ b.2)

/-- Python tuple comparison `a > b` on pairs of ints. -/
def tuple_gt (a b : Nat × Nat) : Bool := tuple_lt b a

/-- Python tuple comparison `a ≥ b` on pairs of ints. -/
def tuple_ge (a b : Nat × Nat) : Bool := tuple_le b a

/-- `os.path.splitext(path)[0]`: the path with its trailing extension removed
(posixpath semantics, including the leading-dot rule for names like `.bashrc`). -/
def splitextRoot (p : List Char) : List Char :=
  match rindexBefore '.' p p.length with
  | none => p
  | some di =>
    let fi : Nat :=
      match rindexBefore '/' p p.length with
      | none => 0
      | some si => si + 1
    if (List.range' fi (di - fi)).any (fun j => p.get? j ≠ some '.') then
      p.take di
    else p

/-- `class Tag` from src/pep425.py: the interpreter/ABI/platform triple.
The raw fields are stored lowercased by the constructor `mkTag`. -/
structure Tag where
  interpreter : List Char
  abi : List Char
  platform : List Char
deriving DecidableEq

/-- `Tag.__init__`: all values are lowercased. -/
def mkTag (interpreter abi platform : List Char) : Tag :=
  ⟨lower interpreter, lower abi, lower platform⟩

/-- `Tag.__str__`: `"-".join(self._tags)`. -/
def tagStr (t : Tag) : List Char := t.interpreter ++ '-' :: t.abi ++ '-' :: t.platform

/-- `parse_tag` from src/pep425.py: split on `-` into exactly three segments
(`none` models the `ValueError` of the triple unpacking), split each segment
on `.`, and collect the cross product into a set. -/
def parse_tag (tag : List Char) : Option (Finset Tag) :=
  match splitChar '-' tag with
  | [interpreters, abis, platforms] =>
    some (((splitChar '.' interpreters).flatMap (fun interpreter =>
      (splitChar '.' abis).flatMap (fun abi =>
        (splitChar '.' platforms).map (fun platform =>
          mkTag interpreter abi platform)))).toFinset)
  | _ => none

/-- `parse_wheel_tag` from src/pep425.py: strip the extension, step three
`rindex("-")` calls from the right (`none` models the `ValueError` when a
step finds no dash), and hand the remaining suffix to `parse_tag`. -/
def parse_wheel_tag (path : List Char) : Option (Finset Tag) :=
  let name := splitextRoot path
  match rindexBefore '-' name name.length with
  | none => none
  | some i1 =>
    match rindexBefore '-' name i1 with
    | none => none
    | some i2 =>
      match rindexBefore '-' name i2 with
      | none => none
      | some i3 => parse_tag (name.drop (i3 + 1))

/-- `_normalize_string`: replace `.` and `-` with `_`. -/
def normalize_string (s : List Char) : List Char :=
  pyreplace (pyreplace s (chars ".") (chars "_")) (chars "-") (chars "_")

/-- `_cpython_interpreter`: `"cp{major}{minor}"`. -/
def cpython_interpreter (py_version : Nat × Nat) : List Char :=
  chars "cp" ++ natToChars py_version.1 ++ natToChars py_version.2

/-- `_cpython_abi`: with a non-empty SOABI, take the middle of
`soabi.split("-", 2)` (`none` models the `ValueError` when the unpacking to
three pieces fails); otherwise build `"cp{major}{minor}"` plus the
`d`/`m`/`u` flags from the interpreter's build configuration. -/
def cpython_abi (soabi : Option (List Char)) (py_version : Nat × Nat)
    (py_debug with_pymalloc : Bool) (unicode_size : Nat) : Option (List Char) :=
  let fallback : Option (List Char) :=
    some (chars "cp" ++ natToChars py_version.1 ++ natToChars py_version.2 ++
      (if py_debug then chars "d" else []) ++
      (if with_pymalloc then chars "m" else []) ++
      (if unicode_size = 4 then chars "u" else []))
  match soabi with
  | some s =>
    if !s.isEmpty then
      match splitCharMax '-' 2 s with
      | [_, options, _] => some (chars "cp" ++ options)
      | _ => none
    else fallback
  | none => fallback

/-- Python `range(minor - 1, 1, -1)`: the minors from `minor - 1` down to 2. -/
def rangeDownTo2 (minor : Nat) : List Nat := (List.range' 2 (minor - 2)).reverse

/-- `_cpython_tags`: the four blocks yielded by the CPython generator. -/
def cpython_tags (py_version : Nat × Nat) (interpreter abi : List Char)
    (platforms : List (List Char)) : List Tag :=
  platforms.map (fun platform => mkTag interpreter abi platform) ++
  platforms.map (fun platform => mkTag interpreter (chars "abi3") platform) ++
  platforms.map (fun platform => mkTag interpreter (chars "none") platform) ++
  (rangeDownTo2 py_version.2).flatMap (fun minor_version =>
    platforms.map (fun platform =>
      mkTag (chars "cp" ++ natToChars py_version.1 ++ natToChars minor_version)
        (chars "abi3") platform))

/-- `_pypy_interpreter`: `"pp{py_major}{pypy_major}{pypy_minor}"`. -/
def pypy_interpreter (py_major pypy_major pypy_minor : Nat) : List Char :=
  chars "pp" ++ natToChars py_major ++ natToChars pypy_major ++ natToChars pypy_minor

/-- `_generic_abi`: the normalized SOABI, or `"none"` when it is unset/empty. -/
def generic_abi (soabi : Option (List Char)) : List Char :=
  match soabi with
  | some s => if !s.isEmpty then normalize_string s else chars "none"
  | none => chars "none"

/-- `_pypy_tags`: the two blocks yielded by the PyPy generator. -/
def pypy_tags (py_version : Nat × Nat) (interpreter abi : List Char)
    (platforms : List (List Char)) : List Tag :=
  platforms.map (fun platform => mkTag interpreter abi platform) ++
  platforms.map (fun platform => mkTag interpreter (chars "none") platform)

/-- `_generic_tags`: one block per ABI, the `"none"` block only when the ABI
is not already `"none"`. -/
def generic_tags (interpreter : List Char) (py_version : Nat × Nat) (abi : List Char)
    (platforms : List (List Char)) : List Tag :=
  platforms.map (fun platform => mkTag interpreter abi platform) ++
  (if abi ≠ chars "none" then
    platforms.map (fun platform => mkTag interpreter (chars "none") platform)
  else [])

/-- `_py_interpreter_range`: `"py{major}{minor}"`, `"py{major}"`, then
`"py{major}{m}"` for `m` from `minor - 1` down to 0. -/
def py_interpreter_range (py_version : Nat × Nat) : List (List Char) :=
  (chars "py" ++ natToChars py_version.1 ++ natToChars py_version.2) ::
  (chars "py" ++ natToChars py_version.1) ::
  (List.range py_version.2).reverse.map (fun minor =>
    chars "py" ++ natToChars py_version.1 ++ natToChars minor)

/-- `_independent_tags`: `py*-none-<platform>`, then `<interpreter>-none-any`,
then `py*-none-any`. -/
def independent_tags (interpreter : List Char) (py_version : Nat × Nat)
    (platforms : List (List Char)) : List Tag :=
  (py_interpreter_range py_version).flatMap (fun version =>
    platforms.map (fun platform => mkTag version (chars "none") platform)) ++
  [mkTag interpreter (chars "none") (chars "any")] ++
  (py_interpreter_range py_version).map (fun version =>
    mkTag version (chars "none") (chars "any"))

/-- `_mac_arch`: 32-bit interpreters collapse `ppc*` to `"ppc"` and everything
else to `"i386"`; 64-bit passes the architecture through. -/
def mac_arch (arch : List Char) (is_32bit : Bool) : List Char :=
  if is_32bit then
    if (chars "ppc").isPrefixOf arch then chars "ppc" else chars "i386"
  else arch

/-- `_mac_binary_formats` from src/pep425.py: the fixed (OS version, CPU
architecture) compatibility table. -/
def mac_binary_formats (version : Nat × Nat) (cpu_arch : List Char) : List (List Char) :=
  if cpu_arch = chars "x86_64" then
    if tuple_ge version (10, 4) then
      [cpu_arch] ++ [chars "intel", chars "fat64", chars "fat32"] ++ [chars "universal"]
    else []
  else if cpu_arch = chars "i386" then
    if tuple_ge version (10, 4) then
      [cpu_arch] ++ [chars "intel", chars "fat32", chars "fat"] ++ [chars "universal"]
    else []
  else if cpu_arch = chars "ppc64" then
    if tuple_gt version (10, 5) || tuple_lt version (10, 4) then []
    else [cpu_arch] ++ [chars "fat64"] ++ [chars "universal"]
  else if cpu_arch = chars "ppc" then
    if tuple_le version (10, 6) then
      [cpu_arch] ++ [chars "fat32", chars "fat"] ++ [chars "universal"]
    else []
  else [cpu_arch] ++ [chars "universal"]

/-- `_mac_platforms` from src/pep425.py with both arguments supplied
explicitly (the `None` defaults read `platform.mac_ver()`, which is host
introspection): step the minor version down to 0 and render one platform
string per binary format, computing the formats from the supplied `arch`. -/
def mac_platforms (version : Nat × Nat) (arch : List Char) : List (List Char) :=
  (List.range (version.2 + 1)).reverse.flatMap (fun minor_version =>
    (mac_binary_formats (version.1, minor_version) arch).map (fun binary_format =>
      chars "macosx_" ++ natToChars version.1 ++ chars "_" ++ natToChars minor_version ++
        chars "_" ++ binary_format))

/-- `binary_formats` from src/pep425/_mac.py (textually the same table as
`_mac_binary_formats`). -/
def Mac.binary_formats (version : Nat × Nat) (cpu_arch : List Char) : List (List Char) :=
  mac_binary_formats version cpu_arch

/-- `platforms` from src/pep425/_mac.py with `version` and `arch` supplied
explicitly.  `cpu_arch` is the architecture reported by `platform.mac_ver()`:
the source computes `arch` from it but then passes `cpu_arch`, not `arch`,
to `binary_formats`, so the `arch` argument is dead in the loop below,
exactly as in the source. -/
def Mac.platforms (cpu_arch : List Char) (version : Nat × Nat) (arch : List Char) :
    List (List Char) :=
  (List.range (version.2 + 1)).reverse.flatMap (fun minor_version =>
    (Mac.binary_formats (version.1, minor_version) cpu_arch).map (fun binary_format =>
      chars "macosx_" ++ natToChars version.1 ++ chars "_" ++ natToChars minor_version ++
        chars "_" ++ binary_format))

/-- `_have_compatible_glibc` given that the interpreter is linked against a
glibc reporting version `sys_glibc` (the ctypes symbol lookup and string
parsing are host introspection). -/
def have_compatible_glibc (sys_glibc : Nat × Nat) (major minimum_minor : Nat) : Bool :=
  major = sys_glibc.1 && decide (minimum_minor ≤ sys_glibc.2)

/-- The `manylinux_support` table of `_linux_platforms`. -/
def manylinux_support : List (List Char × (Nat × Nat)) :=
  [(chars "manylinux2010", (2, 12)), (chars "manylinux1", (2, 5))]

/-- The `for ... break ... else` loop of `_linux_platforms`: the first tier
the probe accepts, together with the tiers the iterator has not yet yielded. -/
def tierLoop (compat : List Char → Nat × Nat → Bool) :
    List (List Char × (Nat × Nat)) → Option (List Char × List (List Char × (Nat × Nat)))
  | [] => none
  | (name, glibc_version) :: rest =>
    if compat name glibc_version then some (name, rest) else tierLoop compat rest

/-- `_linux_platforms` with the normalized `distutils` platform string and the
manylinux probe injected.  A 32-bit interpreter on a reported
`linux_x86_64` is rewritten to `linux_i686`; the first satisfied tier and
all lower tiers are emitted, the bare platform string last. -/
def linux_platforms (linux : List Char) (is_32bit : Bool)
    (compat : List Char → Nat × Nat → Bool) : List (List Char) :=
  let lx := if linux = chars "linux_x86_64" && is_32bit then chars "linux_i686" else linux
  match tierLoop compat manylinux_support with
  | some nr =>
    pyreplace lx (chars "linux") nr.1 ::
      (nr.2.map (fun p => pyreplace lx (chars "linux") p.1) ++ [lx])
  | none => [lx]

/-- `_generic_platforms` with the reported platform string injected. -/
def generic_platforms (reported : List Char) : List (List Char) :=
  [normalize_string reported]

/-- `_generic_interpreter`: `"{name}{version}"`, where the version is
`py_version_nodot` when the configuration provides a non-empty value and the
joined major/minor digits otherwise. -/
def generic_interpreter (name : List Char) (py_version : Nat × Nat)
    (py_version_nodot : Option (List Char)) : List Char :=
  match py_version_nodot with
  | some v => if !v.isEmpty then name ++ v
              else name ++ natToChars py_version.1 ++ natToChars py_version.2
  | none => name ++ natToChars py_version.1 ++ natToChars py_version.2

/-- `sys_tags` with the environment descriptor made explicit: the interpreter
short name, Python version, sysconfig variables, PyPy version numbers and the
already-resolved platform list.  The result is `none` exactly when
`_cpython_abi` raises. -/
def sys_tags (interpreter_name : List Char) (py_version : Nat × Nat)
    (soabi : Option (List Char)) (py_debug with_pymalloc : Bool) (unicode_size : Nat)
    (pypy_major pypy_minor : Nat) (py_version_nodot : Option (List Char))
    (platforms : List (List Char)) : Option (List Tag) :=
  if interpreter_name = chars "cp" then
    match cpython_abi soabi py_version py_debug with_pymalloc unicode_size with
    | some abi =>
      some (cpython_tags py_version (cpython_interpreter py_version) abi platforms ++
        independent_tags (cpython_interpreter py_version) py_version platforms)
    | none => none
  else if interpreter_name = chars "pp" then
    some (pypy_tags py_version (pypy_interpreter py_version.1 pypy_major pypy_minor)
        (generic_abi soabi) platforms ++
      independent_tags (pypy_interpreter py_version.1 pypy_major pypy_minor)
        py_version platforms)
  else
    some (generic_tags (generic_interpreter interpreter_name py_version py_version_nodot)
        py_version (generic_abi soabi) platforms ++
      independent_tags (generic_interpreter interpreter_name py_version py_version_nodot)
        py_version platforms)

/-! ### Helper lemmas about the string machinery -/

/-- Value of the digit list read back as a number. -/
def digitsVal (l : List Char) : Nat := l.foldl (fun a c => 10 * a + digitVal c) 0

theorem digitVal_digitChar (d : Nat) (h : d < 10) : digitVal (digitChar d) = d := by
  interval_cases d <;> rfl

theorem digitsVal_append_singleton (xs : List Char) (c : Char) :
    digitsVal (xs ++ [c]) = 10 * digitsVal xs + digitVal c := by
  simp [digitsVal, List.foldl_append]

theorem digitsVal_natToCharsAux (fuel : Nat) :
    ∀ n : Nat, n < 10 ^ fuel → digitsVal (natToCharsAux fuel n) = n := by
  induction fuel with
  | zero =>
    intro n hn
    interval_cases n
    rfl
  | succ fuel ih =>
    intro n hn
    by_cases h0 : n = 0
    · subst h0; rfl
    · have hdiv : n / 10 < 10 ^ fuel := by
        rw [Nat.div_lt_iff_lt_mul (by norm_num)]
        calc n < 10 ^ (fuel + 1) := hn
        _ = 10 ^ fuel * 10 := by ring
      have : natToCharsAux (fuel + 1) n =
          natToCharsAux fuel (n / 10) ++ [digitChar (n % 10)] := by
        simp [natToCharsAux, h0]
      rw [this, digitsVal_append_singleton, ih _ hdiv,
        digitVal_digitChar _ (Nat.mod_lt _ (by norm_num))]
      exact Nat.div_add_mod n 10

theorem self_lt_ten_pow (n : Nat) : n < 10 ^ (n + 1) := by
  have h := Nat.lt_pow_self (show 1 < 10 by norm_num) (n + 1)
  omega

theorem digitsVal_natToChars (n : Nat) : digitsVal (natToChars n) = n := by
  by_cases h0 : n = 0
  · subst h0; rfl
  · unfold natToChars
    rw [if_neg h0]
    exact digitsVal_natToCharsAux (n + 1) n (self_lt_ten_pow n)

theorem natToChars_inj {a b : Nat} (h : natToChars a = natToChars b) : a = b := by
  have := digitsVal_natToChars a
  rw [h, digitsVal_natToChars] at this
  omega

theorem natToCharsAux_ne_nil (fuel n : Nat) (h0 : n ≠ 0) (hf : fuel ≠ 0) :
    natToCharsAux fuel n ≠ [] := by
  cases fuel with
  | zero => exact absurd rfl hf
  | succ fuel => simp [natToCharsAux, h0]

theorem natToChars_ne_nil (n : Nat) : natToChars n ≠ [] := by
  by_cases h0 : n = 0
  · subst h0; simp [natToChars]
  · unfold natToChars
    rw [if_neg h0]
    exact natToCharsAux_ne_nil _ _ h0 (Nat.succ_ne_zero n)

theorem mem_natToCharsAux (fuel : Nat) :
    ∀ n c, c ∈ natToCharsAux fuel n → ∃ d, d < 10 ∧ c = digitChar d := by
  induction fuel with
  | zero => intro n c hc; simp [natToCharsAux] at hc
  | succ fuel ih =>
    intro n c hc
    by_cases h0 : n = 0
    · simp [natToCharsAux, h0] at hc
    · simp only [natToCharsAux, if_neg h0, List.mem_append, List.mem_singleton] at hc
      rcases hc with hc | hc
      · exact ih _ _ hc
      · exact ⟨n % 10, Nat.mod_lt _ (by norm_num), hc⟩

theorem mem_natToChars {n : Nat} {c : Char} (hc : c ∈ natToChars n) :
    ∃ d, d < 10 ∧ c = digitChar d := by
  by_cases h0 : n = 0
  · subst h0
    simp [natToChars] at hc
    exact ⟨0, by norm_num, hc⟩
  · unfold natToChars at hc
    rw [if_neg h0] at hc
    exact mem_natToCharsAux _ _ _ hc

theorem lowerChar_digitChar (d : Nat) (h : d < 10) :
    lowerChar (digitChar d) = digitChar d := by
  interval_cases d <;> rfl

theorem lower_append (a b : List Char) : lower (a ++ b) = lower a ++ lower b :=
  List.map_append lowerChar a b

theorem lower_eq_self_of (s : List Char) (h : ∀ c ∈ s, lowerChar c = c) :
    lower s = s := by
  induction s with
  | nil => rfl
  | cons c cs ih =>
    simp only [lower, List.map_cons]
    rw [h c (List.mem_cons_self c cs)]
    have := ih (fun x hx => h x (List.mem_cons_of_mem c hx))
    simp only [lower] at this
    rw [this]

theorem lower_natToChars (n : Nat) : lower (natToChars n) = natToChars n := by
  refine lower_eq_self_of _ (fun c hc => ?_)
  obtain ⟨d, hd, rfl⟩ := mem_natToChars hc
  exact lowerChar_digitChar d hd

theorem lowerChar_fix_lower : ∀ d ∈ chars "abcdefghijklmnopqrstuvwxyz", lowerChar d = d := by
  decide

set_option maxHeartbeats 1000000 in
theorem lowerChar_eq_or (c : Char) :
    lowerChar c = c ∨ lowerChar c ∈ chars "abcdefghijklmnopqrstuvwxyz" := by
  unfold lowerChar
  by_cases h1 : c = 'A'
  · rw [if_pos h1]; right; decide
  rw [if_neg h1]
  by_cases h2 : c = 'B'
  · rw [if_pos h2]; right; decide
  rw [if_neg h2]
  by_cases h3 : c = 'C'
  · rw [if_pos h3]; right; decide
  rw [if_neg h3]
  by_cases h4 : c = 'D'
  · rw [if_pos h4]; right; decide
  rw [if_neg h4]
  by_cases h5 : c = 'E'
  · rw [if_pos h5]; right; decide
  rw [if_neg h5]
  by_cases h6 : c = 'F'
  · rw [if_pos h6]; right; decide
  rw [if_neg h6]
  by_cases h7 : c = 'G'
  · rw [if_pos h7]; right; decide
  rw [if_neg h7]
  by_cases h8 : c = 'H'
  · rw [if_pos h8]; right; decide
  rw [if_neg h8]
  by_cases h9 : c = 'I'
  · rw [if_pos h9]; right; decide
  rw [if_neg h9]
  by_cases h10 : c = 'J'
  · rw [if_pos h10]; right; decide
  rw [if_neg h10]
  by_cases h11 : c = 'K'
  · rw [if_pos h11]; right; decide
  rw [if_neg h11]
  by_cases h12 : c = 'L'
  · rw [if_pos h12]; right; decide
  rw [if_neg h12]
  by_cases h13 : c = 'M'
  · rw [if_pos h13]; right; decide
  rw [if_neg h13]
  by_cases h14 : c = 'N'
  · rw [if_pos h14]; right; decide
  rw [if_neg h14]
  by_cases h15 : c = 'O'
  · rw [if_pos h15]; right; decide
  rw [if_neg h15]
  by_cases h16 : c = 'P'
  · rw [if_pos h16]; right; decide
  rw [if_neg h16]
  by_cases h17 : c = 'Q'
  · rw [if_pos h17]; right; decide
  rw [if_neg h17]
  by_cases h18 : c = 'R'
  · rw [if_pos h18]; right; decide
  rw [if_neg h18]
  by_cases h19 : c = 'S'
  · rw [if_pos h19]; right; decide
  rw [if_neg h19]
  by_cases h20 : c = 'T'
  · rw [if_pos h20]; right; decide
  rw [if_neg h20]
  by_cases h21 : c = 'U'
  · rw [if_pos h21]; right; decide
  rw [if_neg h21]
  by_cases h22 : c = 'V'
  · rw [if_pos h22]; right; decide
  rw [if_neg h22]
  by_cases h23 : c = 'W'
  · rw [if_pos h23]; right; decide
  rw [if_neg h23]
  by_cases h24 : c = 'X'
  · rw [if_pos h24]; right; decide
  rw [if_neg h24]
  by_cases h25 : c = 'Y'
  · rw [if_pos h25]; right; decide
  rw [if_neg h25]
  by_cases h26 : c = 'Z'
  · rw [if_pos h26]; right; decide
  rw [if_neg h26]
  left
  rfl

theorem lowerChar_idem (c : Char) : lowerChar (lowerChar c) = lowerChar c := by
  rcases lowerChar_eq_or c with h | h
  · rw [h, h]
  · exact lowerChar_fix_lower _ h

theorem lower_lower (s : List Char) : lower (lower s) = lower s := by
  simp only [lower, List.map_map]
  exact List.map_congr_left (fun c _ => lowerChar_idem c)

theorem lowerChar_eq_dash_iff (c : Char) : lowerChar c = '-' ↔ c = '-' := by
  constructor
  · intro h
    rcases lowerChar_eq_or c with h2 | h2
    · rwa [h2] at h
    · rw [h] at h2
      exact absurd h2 (by decide)
  · intro h
    subst h
    decide

theorem lowerChar_eq_dot_iff (c : Char) : lowerChar c = '.' ↔ c = '.' := by
  constructor
  · intro h
    rcases lowerChar_eq_or c with h2 | h2
    · rwa [h2] at h
    · rw [h] at h2
      exact absurd h2 (by decide)
  · intro h
    subst h
    decide

theorem dash_notMem_lower {s : List Char} (h : '-' ∉ s) : '-' ∉ lower s := by
  intro hmem
  obtain ⟨c, hc, hlc⟩ := List.mem_map.mp hmem
  exact h ((lowerChar_eq_dash_iff c).mp hlc ▸ hc)

theorem dot_notMem_lower {s : List Char} (h : '.' ∉ s) : '.' ∉ lower s := by
  intro hmem
  obtain ⟨c, hc, hlc⟩ := List.mem_map.mp hmem
  exact h ((lowerChar_eq_dot_iff c).mp hlc ▸ hc)

theorem lower_lower_list (l : List (List Char)) :
    (l.map lower).map lower = l.map lower := by
  rw [List.map_map]
  exact List.map_congr_left (fun s _ => lower_lower s)

theorem splitChar_ne_nil (sep : Char) (s : List Char) : splitChar sep s ≠ [] := by
  cases s with
  | nil => simp [splitChar]
  | cons c cs =>
    unfold splitChar
    by_cases h : c = sep
    · simp [h]
    · rw [if_neg h]
      cases hs : splitChar sep cs <;> simp

theorem splitChar_of_notMem {sep : Char} {s : List Char} (h : sep ∉ s) :
    splitChar sep s = [s] := by
  induction s with
  | nil => rfl
  | cons c cs ih =>
    have hc : c ≠ sep := fun hc => h (hc ▸ List.mem_cons_self c cs)
    have hcs : sep ∉ cs := fun hm => h (List.mem_cons_of_mem c hm)
    unfold splitChar
    rw [if_neg hc, ih hcs]

theorem splitChar_append_cons {sep : Char} {x : List Char} (y : List Char)
    (h : sep ∉ x) : splitChar sep (x ++ sep :: y) = x :: splitChar sep y := by
  induction x with
  | nil => simp [splitChar]
  | cons c cs ih =>
    have hc : c ≠ sep := fun hc => h (hc ▸ List.mem_cons_self c cs)
    have hcs : sep ∉ cs := fun hm => h (List.mem_cons_of_mem c hm)
    rw [List.cons_append]
    simp only [splitChar]
    rw [if_neg hc, ih hcs]

theorem notMem_of_mem_splitChar {sep : Char} {s t : List Char}
    (ht : t ∈ splitChar sep s) : sep ∉ t := by
  induction s generalizing t with
  | nil =>
    simp [splitChar] at ht
    subst ht
    simp
  | cons c cs ih =>
    unfold splitChar at ht
    by_cases h : c = sep
    · rw [if_pos h] at ht
      rcases List.mem_cons.mp ht with h1 | h1
      · subst h1; simp
      · exact ih h1
    · rw [if_neg h] at ht
      cases hs : splitChar sep cs with
      | nil => exact absurd hs (splitChar_ne_nil sep cs)
      | cons r rs =>
        rw [hs] at ht
        rcases List.mem_cons.mp ht with h1 | h1
        · subst h1
          intro hmem
          rcases List.mem_cons.mp hmem with h2 | h2
          · exact h h2.symm
          · exact ih (hs ▸ List.mem_cons_self r rs) h2
        · exact ih (hs ▸ List.mem_cons_of_mem r h1)

theorem joinDash_cons_of_ne_nil (x : List Char) {xs : List (List Char)}
    (h : xs ≠ []) : joinDash (x :: xs) = x ++ '-' :: joinDash xs := by
  cases xs with
  | nil => exact absurd rfl h
  | cons y ys => rfl

theorem joinDash_splitChar (s : List Char) : joinDash (splitChar '-' s) = s := by
  induction s with
  | nil => rfl
  | cons c cs ih =>
    simp only [splitChar]
    by_cases h : c = '-'
    · rw [if_pos h, joinDash_cons_of_ne_nil _ (splitChar_ne_nil '-' cs), ih, h]
      rfl
    · rw [if_neg h]
      rcases hs : splitChar '-' cs with _ | ⟨r, rs⟩
      · exact absurd hs (splitChar_ne_nil '-' cs)
      · rw [hs] at ih
        show joinDash ((c :: r) :: rs) = c :: cs
        cases rs with
        | nil =>
          simp only [joinDash] at ih ⊢
          rw [ih]
        | cons r2 rs2 =>
          rw [joinDash_cons_of_ne_nil _ (by simp)]
          rw [joinDash_cons_of_ne_nil _ (by simp)] at ih
          rw [List.cons_append, ih]

theorem rindexBefore_succ (c : Char) (s : List Char) (k : Nat) :
    rindexBefore c s (k + 1) =
      if s.get? k = some c then some k else rindexBefore c s k := rfl

theorem rindex_hit {c : Char} {s : List Char} {k : Nat} (h : s.get? k = some c) :
    rindexBefore c s (k + 1) = some k := by
  rw [rindexBefore_succ, if_pos h]

theorem rindex_skip {c : Char} {s : List Char} {m n : Nat} (hmn : m ≤ n)
    (h : ∀ j, m ≤ j → j < n → s.get? j ≠ some c) :
    rindexBefore c s n = rindexBefore c s m := by
  induction n with
  | zero =>
    have : m = 0 := Nat.le_zero.mp hmn
    rw [this]
  | succ n ih =>
    by_cases hm : m = n + 1
    · rw [hm]
    · have hmn' : m ≤ n := by omega
      have hget := h n hmn' (Nat.lt_succ_self n)
      rw [rindexBefore_succ, if_neg hget]
      exact ih hmn' (fun j hj1 hj2 => h j hj1 (Nat.lt_succ_of_lt hj2))

theorem rindex_none {c : Char} {s : List Char} {n : Nat}
    (h : ∀ j, j < n → s.get? j ≠ some c) : rindexBefore c s n = none :=
  rindex_skip (Nat.zero_le n) (fun j _ hj => h j hj)

theorem rindex_into {c : Char} (w r : List Char) {n : Nat} (hn : n ≤ w.length) :
    rindexBefore c (w ++ r) n = rindexBefore c w n := by
  induction n with
  | zero => rfl
  | succ n ih =>
    have hlt : n < w.length := by omega
    rw [rindexBefore_succ, rindexBefore_succ, List.get?_append hlt,
      ih (Nat.le_of_lt hlt)]

theorem rindex_found {c : Char} (w z r : List Char) (hz : c ∉ z) :
    rindexBefore c (w ++ c :: (z ++ r)) (w.length + 1 + z.length) = some w.length := by
  have h2 : (w ++ c :: (z ++ r)).get? w.length = some c := by
    rw [List.get?_append_right (le_refl w.length)]
    simp
  have h1 : ∀ j, w.length + 1 ≤ j → j < w.length + 1 + z.length →
      (w ++ c :: (z ++ r)).get? j ≠ some c := by
    intro j hj1 hj2 heq
    have hw : w.length ≤ j := by omega
    rw [List.get?_append_right hw] at heq
    obtain ⟨k, hk⟩ : ∃ k, j - w.length = k + 1 := ⟨j - w.length - 1, by omega⟩
    rw [hk, List.get?_cons_succ] at heq
    have hkz : k < z.length := by omega
    rw [List.get?_append hkz] at heq
    exact hz (List.get?_mem heq)
  calc rindexBefore c (w ++ c :: (z ++ r)) (w.length + 1 + z.length)
      = rindexBefore c (w ++ c :: (z ++ r)) (w.length + 1) :=
        rindex_skip (by omega) h1
    _ = some w.length := rindex_hit h2

theorem drop_after_sep (w t : List Char) (c : Char) :
    (w ++ c :: t).drop (w.length + 1) = t := by
  have : w ++ c :: t = (w ++ [c]) ++ t := by simp
  rw [this]
  have hlen : w.length + 1 = (w ++ [c]).length := by simp
  rw [hlen, List.drop_left]

theorem tuple_le_iff (a b : Nat × Nat) :
    tuple_le a b = true ↔ (a.1 < b.1 ∨ (a.1 = b.1 ∧ a.2 ≤ b.2)) := by
  simp [tuple_le]

theorem tuple_lt_iff (a b : Nat × Nat) :
    tuple_lt a b = true ↔ (a.1 < b.1 ∨ (a.1 = b.1 ∧ a.2 < b.2)) := by
  simp [tuple_lt]

theorem tuple_gt_eq_bnot_le (a b : Nat × Nat) : tuple_gt a b = !tuple_le a b := by
  have h1 := tuple_lt_iff b a
  have h2 := tuple_le_iff a b
  cases hgt : tuple_lt b a <;> cases hle : tuple_le a b <;>
    simp_all [tuple_gt] <;> omega

theorem tuple_lt_eq_bnot_ge (a b : Nat × Nat) : tuple_lt a b = !tuple_ge a b := by
  have h1 := tuple_lt_iff a b
  have h2 := tuple_le_iff b a
  cases hlt : tuple_lt a b <;> cases hge : tuple_le b a <;>
    simp_all [tuple_ge] <;> omega


theorem mbf_x86_64 (v : Nat × Nat) : mac_binary_formats v (chars "x86_64") =
    if tuple_ge v (10, 4) then
      [chars "x86_64", chars "intel", chars "fat64", chars "fat32", chars "universal"]
    else [] := by
  by_cases h : tuple_ge v (10, 4) <;> simp [mac_binary_formats, h] <;> decide

theorem mbf_i386 (v : Nat × Nat) : mac_binary_formats v (chars "i386") =
    if tuple_ge v (10, 4) then
      [chars "i386", chars "intel", chars "fat32", chars "fat", chars "universal"]
    else [] := by
  by_cases h : tuple_ge v (10, 4) <;> simp [mac_binary_formats, h] <;> decide

theorem mbf_ppc64 (v : Nat × Nat) : mac_binary_formats v (chars "ppc64") =
    if tuple_ge v (10, 4) && tuple_le v (10, 5) then
      [chars "ppc64", chars "fat64", chars "universal"]
    else [] := by
  simp only [mac_binary_formats, tuple_gt_eq_bnot_le, tuple_lt_eq_bnot_ge]
  by_cases h1 : tuple_ge v (10, 4) <;> by_cases h2 : tuple_le v (10, 5) <;>
    simp [h1, h2] <;> decide

theorem mbf_ppc (v : Nat × Nat) : mac_binary_formats v (chars "ppc") =
    if tuple_le v (10, 6) then
      [chars "ppc", chars "fat32", chars "fat", chars "universal"]
    else [] := by
  simp only [mac_binary_formats, tuple_gt_eq_bnot_le, tuple_lt_eq_bnot_ge]
  by_cases h : tuple_le v (10, 6) <;> by_cases h1 : tuple_ge v (10, 4) <;>
    by_cases h2 : tuple_le v (10, 5) <;> simp [h, h1, h2] <;> decide

theorem mbf_other (arch : List Char)
    (h : arch ∉ [chars "x86_64", chars "i386", chars "ppc64", chars "ppc"])
    (v : Nat × Nat) : mac_binary_formats v arch = [arch, chars "universal"] := by
  simp only [List.mem_cons, List.mem_singleton, not_or] at h
  obtain ⟨h1, h2, h3, h4, -⟩ := h
  simp only [mac_binary_formats, if_neg h1, if_neg h2, if_neg h3, if_neg h4]
  rfl

/-! ### Claim theorems -/

/-- C5: `mac_binary_formats` implements the fixed compatibility table:
x86_64 and i386 yield their five-format chains exactly for versions ≥ 10.4
and the empty list below; ppc64 yields its chain exactly for
10.4 ≤ version ≤ 10.5; ppc yields its chain exactly for version ≤ 10.6;
any other architecture yields `[arch, "universal"]`; an empty result never
has `"universal"` appended (every non-empty result ends in `"universal"`);
and the copy in src/pep425/_mac.py computes the same table. -/
theorem c5_mac_binary_formats_table :
    (∀ v : Nat × Nat, mac_binary_formats v (chars "x86_64") =
      if tuple_ge v (10, 4) then
        [chars "x86_64", chars "intel", chars "fat64", chars "fat32", chars "universal"]
      else []) ∧
    (∀ v : Nat × Nat, mac_binary_formats v (chars "i386") =
      if tuple_ge v (10, 4) then
        [chars "i386", chars "intel", chars "fat32", chars "fat", chars "universal"]
      else []) ∧
    (∀ v : Nat × Nat, mac_binary_formats v (chars "ppc64") =
      if tuple_ge v (10, 4) && tuple_le v (10, 5) then
        [chars "ppc64", chars "fat64", chars "universal"]
      else []) ∧
    (∀ v : Nat × Nat, mac_binary_formats v (chars "ppc") =
      if tuple_le v (10, 6) then
        [chars "ppc", chars "fat32", chars "fat", chars "universal"]
      else []) ∧
    (∀ arch, arch ∉ [chars "x86_64", chars "i386", chars "ppc64", chars "ppc"] →
      ∀ v : Nat × Nat, mac_binary_formats v arch = [arch, chars "universal"]) ∧
    (∀ (v : Nat × Nat) (arch : List Char), mac_binary_formats v arch = [] ∨
      (mac_binary_formats v arch).getLast? = some (chars "universal")) ∧
    (∀ (v : Nat × Nat) (arch : List Char),
      Mac.binary_formats v arch = mac_binary_formats v arch) := by
  refine ⟨mbf_x86_64, mbf_i386, mbf_ppc64, mbf_ppc, mbf_other, ?_, fun v arch => rfl⟩
  intro v arch
  by_cases h1 : arch = chars "x86_64"
  · subst h1
    rw [mbf_x86_64]
    by_cases h : tuple_ge v (10, 4) <;> simp [h]
  by_cases h2 : arch = chars "i386"
  · subst h2
    rw [mbf_i386]
    by_cases h : tuple_ge v (10, 4) <;> simp [h]
  by_cases h3 : arch = chars "ppc64"
  · subst h3
    rw [mbf_ppc64]
    by_cases h : tuple_ge v (10, 4) && tuple_le v (10, 5) <;> simp [h]
  by_cases h4 : arch = chars "ppc"
  · subst h4
    rw [mbf_ppc]
    by_cases h : tuple_le v (10, 6) <;> simp [h]
  · have hn : arch ∉ [chars "x86_64", chars "i386", chars "ppc64", chars "ppc"] := by
      simp [h1, h2, h3, h4]
    rw [mbf_other arch hn v]
    right
    simp

/-- C5 witness: the generic row of the table evaluated at a concrete
architecture outside the table. -/
theorem c5_witness :
    chars "arm64" ∉ [chars "x86_64", chars "i386", chars "ppc64", chars "ppc"] ∧
    mac_binary_formats (10, 4) (chars "arm64") = [chars "arm64", chars "universal"] :=
  ⟨by decide, c5_mac_binary_formats_table.2.2.2.2.1 (chars "arm64") (by decide) (10, 4)⟩

/-- C10 counterexample: at architecture `"universal"` itself the result is
`["universal", "universal"]`, so `"universal"` also occurs in a non-final
position, refuting the claim as stated at this input. -/
theorem c10_counterexample :
    ¬ (mac_binary_formats (10, 4) (chars "universal") ≠ [] →
        (mac_binary_formats (10, 4) (chars "universal")).head? =
          some (chars "universal") ∧
        (mac_binary_formats (10, 4) (chars "universal")).getLast? =
          some (chars "universal") ∧
        (mac_binary_formats (10, 4) (chars "universal")).count (chars "universal") = 1) := by
  decide

/-- C10 amended: every non-empty `mac_binary_formats` result begins with the
given architecture and ends with `"universal"`, and provided the architecture
is not itself the string `"universal"`, `"universal"` occurs exactly once
(namely in the final position). -/
theorem c10_formats_shape (v : Nat × Nat) (arch : List Char)
    (h : mac_binary_formats v arch ≠ []) :
    (mac_binary_formats v arch).head? = some arch ∧
    (mac_binary_formats v arch).getLast? = some (chars "universal") ∧
    (arch ≠ chars "universal" →
      (mac_binary_formats v arch).count (chars "universal") = 1) := by
  by_cases h1 : arch = chars "x86_64"
  · subst h1
    rw [mbf_x86_64] at h ⊢
    by_cases hv : tuple_ge v (10, 4) <;> simp_all <;> decide
  by_cases h2 : arch = chars "i386"
  · subst h2
    rw [mbf_i386] at h ⊢
    by_cases hv : tuple_ge v (10, 4) <;> simp_all <;> decide
  by_cases h3 : arch = chars "ppc64"
  · subst h3
    rw [mbf_ppc64] at h ⊢
    by_cases hv : tuple_ge v (10, 4) && tuple_le v (10, 5) <;> simp_all <;> decide
  by_cases h4 : arch = chars "ppc"
  · subst h4
    rw [mbf_ppc] at h ⊢
    by_cases hv : tuple_le v (10, 6) <;> simp_all <;> decide
  · have hn : arch ∉ [chars "x86_64", chars "i386", chars "ppc64", chars "ppc"] := by
      simp [h1, h2, h3, h4]
    rw [mbf_other arch hn v]
    refine ⟨rfl, by simp, fun hne => ?_⟩
    simp [List.count_cons, hne]

/-- C10 witness: the shape invariant at a concrete input. -/
theorem c10_witness :
    mac_binary_formats (10, 5) (chars "x86_64") ≠ [] ∧
    ((mac_binary_formats (10, 5) (chars "x86_64")).head? = some (chars "x86_64") ∧
     (mac_binary_formats (10, 5) (chars "x86_64")).getLast? = some (chars "universal") ∧
     (chars "x86_64" ≠ chars "universal" →
       (mac_binary_formats (10, 5) (chars "x86_64")).count (chars "universal") = 1)) :=
  ⟨by decide, c10_formats_shape (10, 5) (chars "x86_64") (by decide)⟩

/-- C3: the two macOS platform enumerators agree only when the host's
reported CPU architecture coincides with the requested one.  The package
variant `pep425/_mac.py platforms` computes `arch` from its parameter but
then passes the *detected* `cpu_arch` to `binary_formats` (the parameter is
dead), so with an explicit `arch = "x86_64"` on a host reporting an empty
architecture it produces `macosx_10_5_`-style entries instead of the
x86_64 chain required by the claim, by `_mac_platforms` in src/pep425.py,
and by the package's own test `tests/test_mac.py::test_mac_platforms`. -/
theorem c3_mac_platforms_divergence :
    (∀ (v : Nat × Nat) (arch : List Char), Mac.platforms arch v arch = mac_platforms v arch) ∧
    mac_platforms (10, 5) (chars "x86_64") =
      [chars "macosx_10_5_x86_64", chars "macosx_10_5_intel", chars "macosx_10_5_fat64",
       chars "macosx_10_5_fat32", chars "macosx_10_5_universal",
       chars "macosx_10_4_x86_64", chars "macosx_10_4_intel", chars "macosx_10_4_fat64",
       chars "macosx_10_4_fat32", chars "macosx_10_4_universal"] ∧
    Mac.platforms (chars "") (10, 5) (chars "x86_64") =
      [chars "macosx_10_5_", chars "macosx_10_5_universal",
       chars "macosx_10_4_", chars "macosx_10_4_universal",
       chars "macosx_10_3_", chars "macosx_10_3_universal",
       chars "macosx_10_2_", chars "macosx_10_2_universal",
       chars "macosx_10_1_", chars "macosx_10_1_universal",
       chars "macosx_10_0_", chars "macosx_10_0_universal"] ∧
    Mac.platforms (chars "") (10, 5) (chars "x86_64") ≠
      mac_platforms (10, 5) (chars "x86_64") :=
  ⟨fun v arch => rfl, by decide, by decide, by decide⟩

/-- C9 counterexample: a CPython environment with no discoverable SOABI does
not fail: `_cpython_abi` guesses `cp37m` from the version digits and the
`WITH_PYMALLOC` flag, and `sys_tags` produces a tag sequence. -/
theorem c9_counterexample :
    cpython_abi none (3, 7) false true 2 = some (chars "cp37m") ∧
    sys_tags (chars "cp") (3, 7) none false true 2 0 0 none [chars "plat"] ≠ none := by
  decide

/-- C9 amended: with no SOABI, `_cpython_abi` falls back to constructing
`"cp{major}{minor}"` plus the `d`/`m`/`u` build-flag suffixes instead of
failing, and `sys_tags` always produces a tag sequence for such an
environment. -/
theorem c9_abi_fallback (pv : Nat × Nat) (d m : Bool) (u : Nat) :
    cpython_abi none pv d m u =
      some (chars "cp" ++ natToChars pv.1 ++ natToChars pv.2 ++
        (if d then chars "d" else []) ++ (if m then chars "m" else []) ++
        (if u = 4 then chars "u" else [])) ∧
    ∀ (pypy_major pypy_minor : Nat) (nodot : Option (List Char))
      (platforms : List (List Char)),
      (sys_tags (chars "cp") pv none d m u pypy_major pypy_minor nodot
        platforms).isSome = true := by
  constructor
  · rfl
  · intro pypy_major pypy_minor nodot platforms
    simp [sys_tags, cpython_abi]

/-- C4: `_linux_platforms` emits the platform string of the first satisfied
manylinux tier from the descending table (manylinux2010 ≥ glibc 2.12, then
manylinux1 ≥ glibc 2.5), followed by every lower tier's platform string,
with the bare normalized platform string last; with no satisfied tier the
result is exactly the normalized platform string; a reported
`linux_x86_64` under a 32-bit interpreter behaves as `linux_i686`; and with
glibc ≥ 2.12 on x86_64 the result is
`["manylinux2010_x86_64", "manylinux1_x86_64", "linux_x86_64"]`. -/
theorem c4_linux_platforms :
    (∀ (linux : List Char) (is_32bit : Bool) (compat : List Char → Nat × Nat → Bool),
      linux_platforms linux is_32bit compat =
        (let lx := if linux = chars "linux_x86_64" && is_32bit
                   then chars "linux_i686" else linux
         if compat (chars "manylinux2010") (2, 12) then
           [pyreplace lx (chars "linux") (chars "manylinux2010"),
            pyreplace lx (chars "linux") (chars "manylinux1"), lx]
         else if compat (chars "manylinux1") (2, 5) then
           [pyreplace lx (chars "linux") (chars "manylinux1"), lx]
         else [lx])) ∧
    (∀ compat : List Char → Nat × Nat → Bool,
      linux_platforms (chars "linux_x86_64") true compat =
        linux_platforms (chars "linux_i686") true compat) ∧
    (∀ g : Nat, 12 ≤ g →
      linux_platforms (chars "linux_x86_64") false
        (fun _ gv => have_compatible_glibc (2, g) gv.1 gv.2) =
      [chars "manylinux2010_x86_64", chars "manylinux1_x86_64", chars "linux_x86_64"]) := by
  refine ⟨?_, ?_, ?_⟩
  · intro linux is_32bit compat
    by_cases c1 : compat (chars "manylinux2010") (2, 12) <;>
      by_cases c2 : compat (chars "manylinux1") (2, 5) <;>
      simp [linux_platforms, manylinux_support, tierLoop, c1, c2]
  · intro compat
    by_cases c1 : compat (chars "manylinux2010") (2, 12) <;>
      by_cases c2 : compat (chars "manylinux1") (2, 5) <;>
      simp [linux_platforms, manylinux_support, tierLoop, c1, c2] <;> decide
  · intro g hg
    have hc1 : have_compatible_glibc (2, g) 2 12 = true := by
      simp [have_compatible_glibc, hg]
    simp [linux_platforms, manylinux_support, tierLoop, hc1]
    decide

/-- C4 witness: the glibc-2.12 tier chain at the concrete probe answer. -/
theorem c4_witness :
    12 ≤ 12 ∧
    linux_platforms (chars "linux_x86_64") false
      (fun _ gv => have_compatible_glibc (2, 12) gv.1 gv.2) =
    [chars "manylinux2010_x86_64", chars "manylinux1_x86_64", chars "linux_x86_64"] :=
  ⟨by decide, c4_linux_platforms.2.2 12 (by decide)⟩

/-- C1: the CPython generator followed by the independent tail emits exactly,
in order: `Tag("cp{major}{minor}", abi, p)` for every platform `p` in list
order; then `Tag("cp{major}{minor}", "abi3", p)`; then
`Tag("cp{major}{minor}", "none", p)`; then, for each stable-ABI minor in
`range(minor - 1, 1, -1)`, `Tag("cp{major}{stable_minor}", "abi3", p)` for
every platform; and finally the `independent_tags` block as the tail. -/
theorem c1_cpython_tag_order (pv : Nat × Nat) (abi : List Char)
    (platforms : List (List Char)) :
    cpython_tags pv (cpython_interpreter pv) abi platforms ++
      independent_tags (cpython_interpreter pv) pv platforms =
    platforms.map (fun p =>
      mkTag (chars "cp" ++ natToChars pv.1 ++ natToChars pv.2) abi p) ++
    platforms.map (fun p =>
      mkTag (chars "cp" ++ natToChars pv.1 ++ natToChars pv.2) (chars "abi3") p) ++
    platforms.map (fun p =>
      mkTag (chars "cp" ++ natToChars pv.1 ++ natToChars pv.2) (chars "none") p) ++
    (rangeDownTo2 pv.2).flatMap (fun stable_minor =>
      platforms.map (fun p =>
        mkTag (chars "cp" ++ natToChars pv.1 ++ natToChars stable_minor)
          (chars "abi3") p)) ++
    independent_tags (cpython_interpreter pv) pv platforms := by
  simp [cpython_tags, cpython_interpreter, List.append_assoc]

/-- C6: `parse_tag` fails exactly when the input does not split on `-` into
exactly three segments, and on exactly three segments it returns the set of
cross-product tags of the dot-separated alternatives, deduplicated over the
lowercased triples. -/
theorem c6_parse_tag_spec (t : List Char) :
    ((parse_tag t).isSome ↔ (splitChar '-' t).length = 3) ∧
    (∀ i a p, splitChar '-' t = [i, a, p] →
      parse_tag t = some (((splitChar '.' i).flatMap (fun itp =>
        (splitChar '.' a).flatMap (fun ab =>
          (splitChar '.' p).map (fun pl => mkTag itp ab pl)))).toFinset)) := by
  constructor
  · unfold parse_tag
    rcases h : splitChar '-' t with _ | ⟨x, _ | ⟨y, _ | ⟨z, _ | ⟨w, rest⟩⟩⟩⟩ <;> simp
  · intro i a p h
    unfold parse_tag
    rw [h]

/-- C6 witness: the compressed tag `py2.py3-none-any` expands to the two-tag
cross product. -/
theorem c6_witness :
    splitChar '-' (chars "py2.py3-none-any") =
      [chars "py2.py3", chars "none", chars "any"] ∧
    parse_tag (chars "py2.py3-none-any") =
      some (((splitChar '.' (chars "py2.py3")).flatMap (fun itp =>
        (splitChar '.' (chars "none")).flatMap (fun ab =>
          (splitChar '.' (chars "any")).map (fun pl => mkTag itp ab pl)))).toFinset) :=
  ⟨by decide, (c6_parse_tag_spec (chars "py2.py3-none-any")).2
    (chars "py2.py3") (chars "none") (chars "any") (by decide)⟩

/-- C7: for triples whose components contain neither `-` nor `.`, parsing the
string form of a constructed tag round-trips to the singleton set containing
that tag. -/
theorem c7_roundtrip (i a p : List Char)
    (hi : '-' ∉ i) (hid : '.' ∉ i) (ha : '-' ∉ a) (had : '.' ∉ a)
    (hp : '-' ∉ p) (hpd : '.' ∉ p) :
    parse_tag (tagStr (mkTag i a p)) = some {mkTag i a p} := by
  have e1 : tagStr (mkTag i a p) = lower i ++ '-' :: (lower a ++ '-' :: lower p) := by
    simp [tagStr, mkTag, List.append_assoc]
  rw [e1]
  unfold parse_tag
  rw [splitChar_append_cons _ (dash_notMem_lower hi),
    splitChar_append_cons _ (dash_notMem_lower ha),
    splitChar_of_notMem (dash_notMem_lower hp)]
  simp only [splitChar_of_notMem (dot_notMem_lower hid),
    splitChar_of_notMem (dot_notMem_lower had),
    splitChar_of_notMem (dot_notMem_lower hpd)]
  simp [mkTag, lower_lower]

/-- C7 witness: the round trip at a concrete (mixed-case) triple. -/
theorem c7_witness :
    ('-' ∉ chars "PY3" ∧ '.' ∉ chars "PY3" ∧ '-' ∉ chars "none" ∧
     '.' ∉ chars "none" ∧ '-' ∉ chars "any" ∧ '.' ∉ chars "any") ∧
    parse_tag (tagStr (mkTag (chars "PY3") (chars "none") (chars "any"))) =
      some {mkTag (chars "PY3") (chars "none") (chars "any")} :=
  ⟨by decide, c7_roundtrip (chars "PY3") (chars "none") (chars "any")
    (by decide) (by decide) (by decide) (by decide) (by decide) (by decide)⟩

theorem rindex_none_of_notMem {c : Char} {s : List Char} (h : c ∉ s) (n : Nat) :
    rindexBefore c s n = none :=
  rindex_none (fun _ _ heq => h (List.get?_mem heq))

theorem rindex_found_hi {c : Char} (w z r : List Char) (hz : c ∉ z) (hi : Nat)
    (hhi : hi = w.length + 1 + z.length) (s : List Char)
    (hs : s = w ++ c :: (z ++ r)) : rindexBefore c s hi = some w.length := by
  subst hs
  subst hhi
  exact rindex_found w z r hz

theorem joinDash_append (q r : List (List Char)) (hq : q ≠ []) (hr : r ≠ []) :
    joinDash (q ++ r) = joinDash q ++ '-' :: joinDash r := by
  induction q with
  | nil => exact absurd rfl hq
  | cons a as ih =>
    cases as with
    | nil =>
      rw [List.singleton_append, joinDash_cons_of_ne_nil _ hr]
      rfl
    | cons b bs =>
      rw [List.cons_append, joinDash_cons_of_ne_nil _ (by simp),
        joinDash_cons_of_ne_nil _ (by simp), ih (by simp)]
      simp [List.append_assoc]

/-- The general behaviour of `parse_wheel_tag`: after stripping the extension,
the result is `parse_tag` applied to the join of the last three dash-separated
fields of the stem when at least four fields exist, and failure otherwise. -/
theorem parse_wheel_tag_eq (path : List Char) :
    parse_wheel_tag path =
      if 4 ≤ (splitChar '-' (splitextRoot path)).length then
        parse_tag (joinDash ((splitChar '-' (splitextRoot path)).drop
          ((splitChar '-' (splitextRoot path)).length - 3)))
      else none := by
  simp only [parse_wheel_tag]
  generalize splitextRoot path = stem
  set f := splitChar '-' stem with hfdef
  have hjoin : stem = joinDash f := (joinDash_splitChar stem).symm
  have hmem : ∀ t ∈ f, '-' ∉ t := fun t ht => notMem_of_mem_splitChar ht
  have hfne : f ≠ [] := splitChar_ne_nil '-' stem
  by_cases hL : 4 ≤ f.length
  · rw [if_pos hL]
    obtain ⟨x, y, z, hxyz⟩ := List.length_eq_three.mp
      (show (f.drop (f.length - 3)).length = 3 by rw [List.length_drop]; omega)
    rw [hxyz]
    have hq : f.take (f.length - 3) ++ [x, y, z] = f := by
      rw [← hxyz, List.take_append_drop]
    have htake_ne : f.take (f.length - 3) ≠ [] := by
      apply List.ne_nil_of_length_pos
      rw [List.length_take]
      omega
    have hx : '-' ∉ x := hmem x (by rw [← hq]; simp)
    have hy : '-' ∉ y := hmem y (by rw [← hq]; simp)
    have hz : '-' ∉ z := hmem z (by rw [← hq]; simp)
    set J := joinDash (f.take (f.length - 3)) with hJ
    have hstem2 : stem = J ++ '-' :: (x ++ '-' :: (y ++ '-' :: z)) := by
      rw [hjoin, ← hq, joinDash_append _ _ htake_ne (by simp)]
      rfl
    rw [hstem2]
    have e1 : rindexBefore '-' (J ++ '-' :: (x ++ '-' :: (y ++ '-' :: z)))
        (J ++ '-' :: (x ++ '-' :: (y ++ '-' :: z))).length =
        some (J ++ '-' :: (x ++ '-' :: y)).length :=
      rindex_found_hi (J ++ '-' :: (x ++ '-' :: y)) z [] hz _
        (by simp [List.length_append]; omega) _ (by simp [List.append_assoc])
    have e2 : rindexBefore '-' (J ++ '-' :: (x ++ '-' :: (y ++ '-' :: z)))
        (J ++ '-' :: (x ++ '-' :: y)).length = some (J ++ '-' :: x).length :=
      rindex_found_hi (J ++ '-' :: x) y ('-' :: z) hy _
        (by simp [List.length_append]; omega) _ (by simp [List.append_assoc])
    have e3 : rindexBefore '-' (J ++ '-' :: (x ++ '-' :: (y ++ '-' :: z)))
        (J ++ '-' :: x).length = some J.length :=
      rindex_found_hi J x ('-' :: (y ++ '-' :: z)) hx _
        (by simp [List.length_append]; omega) _ (by simp [List.append_assoc])
    simp only [e1, e2, e3]
    rw [drop_after_sep]
    rfl
  · rw [if_neg hL]
    have hpos : 0 < f.length := List.length_pos.mpr hfne
    have h123 : f.length = 1 ∨ f.length = 2 ∨ f.length = 3 := by omega
    rcases h123 with h1 | h2 | h3
    · obtain ⟨x, hf⟩ := List.length_eq_one.mp h1
      have hstem2 : stem = x := by rw [hjoin, hf]; rfl
      rw [hstem2, rindex_none_of_notMem (hmem x (by rw [hf]; simp)) _]
    · obtain ⟨x, y, hf⟩ := List.length_eq_two.mp h2
      have hx : '-' ∉ x := hmem x (by rw [hf]; simp)
      have hy : '-' ∉ y := hmem y (by rw [hf]; simp)
      have hstem2 : stem = x ++ '-' :: y := by rw [hjoin, hf]; rfl
      rw [hstem2]
      have e1 : rindexBefore '-' (x ++ '-' :: y) (x ++ '-' :: y).length =
          some x.length :=
        rindex_found_hi x y [] hy _ (by simp [List.length_append]; omega) _
          (by simp)
      have e2 : rindexBefore '-' (x ++ '-' :: y) x.length = none := by
        rw [rindex_into x ('-' :: y) (le_refl x.length),
          rindex_none_of_notMem hx]
      simp only [e1, e2]
    · obtain ⟨x, y, z, hf⟩ := List.length_eq_three.mp h3
      have hx : '-' ∉ x := hmem x (by rw [hf]; simp)
      have hy : '-' ∉ y := hmem y (by rw [hf]; simp)
      have hz : '-' ∉ z := hmem z (by rw [hf]; simp)
      have hstem2 : stem = x ++ '-' :: (y ++ '-' :: z) := by rw [hjoin, hf]; rfl
      rw [hstem2]
      have e1 : rindexBefore '-' (x ++ '-' :: (y ++ '-' :: z))
          (x ++ '-' :: (y ++ '-' :: z)).length = some (x ++ '-' :: y).length :=
        rindex_found_hi (x ++ '-' :: y) z [] hz _
          (by simp [List.length_append]; omega) _ (by simp [List.append_assoc])
      have e2 : rindexBefore '-' (x ++ '-' :: (y ++ '-' :: z))
          (x ++ '-' :: y).length = some x.length :=
        rindex_found_hi x y ('-' :: z) hy _
          (by simp [List.length_append]; omega) _ (by simp [List.append_assoc])
      have e3 : rindexBefore '-' (x ++ '-' :: (y ++ '-' :: z)) x.length = none := by
        rw [rindex_into x ('-' :: (y ++ '-' :: z)) (le_refl x.length),
          rindex_none_of_notMem hx]
      simp only [e1, e2, e3]

/-- C8: `parse_wheel_tag` strips the trailing extension, extracts exactly the
last three dash-delimited fields of the stem (scanning from the right, so
dashes earlier in the stem are ignored), delegates that tag text to
`parse_tag`, and fails when fewer than four dash-delimited fields exist;
`pip-18.0-py2.py3-none-any.whl` yields the two `py2`/`py3` tags. -/
theorem c8_parse_wheel_tag_spec :
    (∀ path : List Char,
      parse_wheel_tag path =
        if 4 ≤ (splitChar '-' (splitextRoot path)).length then
          parse_tag (joinDash ((splitChar '-' (splitextRoot path)).drop
            ((splitChar '-' (splitextRoot path)).length - 3)))
        else none) ∧
    parse_wheel_tag (chars "pip-18.0-py2.py3-none-any.whl") =
      some {mkTag (chars "py2") (chars "none") (chars "any"),
            mkTag (chars "py3") (chars "none") (chars "any")} :=
  ⟨parse_wheel_tag_eq, by decide⟩

theorem head_ne {c d : Char} (h : c ≠ d) (x y : List Char) : c :: x ≠ d :: y := by
  intro he
  injection he with h1 _
  exact h h1

theorem lower_fixes_cp (M k : Nat) :
    lower (chars "cp" ++ natToChars M ++ natToChars k) =
      chars "cp" ++ natToChars M ++ natToChars k := by
  rw [lower_append, lower_append, lower_natToChars, lower_natToChars,
    show lower (chars "cp") = chars "cp" from by decide]

theorem lower_fixes_py2 (M k : Nat) :
    lower (chars "py" ++ natToChars M ++ natToChars k) =
      chars "py" ++ natToChars M ++ natToChars k := by
  rw [lower_append, lower_append, lower_natToChars, lower_natToChars,
    show lower (chars "py") = chars "py" from by decide]

theorem lower_fixes_py1 (M : Nat) :
    lower (chars "py" ++ natToChars M) = chars "py" ++ natToChars M := by
  rw [lower_append, lower_natToChars,
    show lower (chars "py") = chars "py" from by decide]

theorem cp_form_ne_py_form (x y : List Char) : chars "cp" ++ x ≠ chars "py" ++ y := by
  intro h
  have h2 : 'c' :: 'p' :: x = 'p' :: 'y' :: y := h
  injection h2 with h1 _
  exact absurd h1 (by decide)

theorem append_natToChars_inj {A : List Char} {k k' : Nat}
    (h : A ++ natToChars k = A ++ natToChars k') : k = k' :=
  natToChars_inj (List.append_cancel_left h)

theorem py_full_ne_py_major (M m : Nat) :
    chars "py" ++ natToChars M ++ natToChars m ≠ chars "py" ++ natToChars M := by
  intro h
  have hlen := congrArg List.length h
  simp only [List.length_append] at hlen
  exact natToChars_ne_nil m (List.length_eq_zero.mp (by omega))

theorem pyrange_shape (pv : Nat × Nat) :
    ∀ v ∈ py_interpreter_range pv, ∃ w, v = chars "py" ++ w := by
  intro v hv
  unfold py_interpreter_range at hv
  rcases List.mem_cons.mp hv with h | hv
  · exact ⟨natToChars pv.1 ++ natToChars pv.2, by rw [h, List.append_assoc]⟩
  rcases List.mem_cons.mp hv with h | hv
  · exact ⟨natToChars pv.1, h⟩
  · obtain ⟨k, -, rfl⟩ := List.mem_map.mp hv
    exact ⟨natToChars pv.1 ++ natToChars k, by rw [List.append_assoc]⟩

theorem pyrange_lower (pv : Nat × Nat) :
    ∀ v ∈ py_interpreter_range pv, lower v = v := by
  intro v hv
  unfold py_interpreter_range at hv
  rcases List.mem_cons.mp hv with h | hv
  · rw [h, lower_fixes_py2]
  rcases List.mem_cons.mp hv with h | hv
  · rw [h, lower_fixes_py1]
  · obtain ⟨k, -, rfl⟩ := List.mem_map.mp hv
    rw [lower_fixes_py2]

theorem pyrange_nodup (pv : Nat × Nat) : (py_interpreter_range pv).Nodup := by
  unfold py_interpreter_range
  refine List.nodup_cons.mpr ⟨?_, List.nodup_cons.mpr ⟨?_, ?_⟩⟩
  · intro hmem
    rcases List.mem_cons.mp hmem with h | hmem
    · exact py_full_ne_py_major pv.1 pv.2 h
    · obtain ⟨k, hk, heq⟩ := List.mem_map.mp hmem
      have : pv.2 = k := append_natToChars_inj heq.symm
      rw [List.mem_reverse, List.mem_range] at hk
      omega
  · intro hmem
    obtain ⟨k, -, heq⟩ := List.mem_map.mp hmem
    exact py_full_ne_py_major pv.1 k heq
  · refine List.Nodup.map ?_ (List.nodup_reverse.mpr (List.nodup_range _))
    intro k k' h
    exact append_natToChars_inj h

theorem disjoint_of_field {l₁ l₂ : List Tag} (f : Tag → List Char)
    (h : ∀ t₁ ∈ l₁, ∀ t₂ ∈ l₂, f t₁ ≠ f t₂) : l₁.Disjoint l₂ :=
  fun t ht1 ht2 => h t ht1 t ht2 rfl

theorem mem_tag_block {i a : List Char} {ps : List (List Char)} {t : Tag}
    (ht : t ∈ ps.map (fun p => mkTag i a p)) :
    t.interpreter = lower i ∧ t.abi = lower a ∧ ∃ p ∈ ps, t.platform = lower p := by
  obtain ⟨p, hp, rfl⟩ := List.mem_map.mp ht
  exact ⟨rfl, rfl, p, hp, rfl⟩

theorem tag_block_nodup (i a : List Char) (ps : List (List Char))
    (h : (ps.map lower).Nodup) : (ps.map (fun p => mkTag i a p)).Nodup := by
  have he : ps.map (fun p => mkTag i a p) =
      (ps.map lower).map (fun q => Tag.mk (lower i) (lower a) q) := by
    rw [List.map_map]
    rfl
  rw [he]
  refine List.Nodup.map ?_ h
  intro q q' hq
  injection hq

theorem disjoint_flatMap_left {α : Type} {f : α → List Tag} {l : List α} {r : List Tag}
    (h : ∀ x ∈ l, (f x).Disjoint r) : (l.flatMap f).Disjoint r := by
  intro t ht htr
  obtain ⟨x, hx, htx⟩ := List.mem_flatMap.mp ht
  exact h x hx htx htr

theorem disjoint_flatMap_right {α : Type} {f : α → List Tag} {l : List α} {r : List Tag}
    (h : ∀ x ∈ l, r.Disjoint (f x)) : r.Disjoint (l.flatMap f) := by
  intro t htr ht
  obtain ⟨x, hx, htx⟩ := List.mem_flatMap.mp ht
  exact h x hx htr htx

theorem disjoint_abi_blocks {i1 a1 i2 a2 : List Char} {ps qs : List (List Char)}
    (h : lower a1 ≠ lower a2) :
    (ps.map (fun p => mkTag i1 a1 p)).Disjoint (qs.map (fun p => mkTag i2 a2 p)) := by
  apply disjoint_of_field Tag.abi
  intro t1 h1 t2 h2
  rw [(mem_tag_block h1).2.1, (mem_tag_block h2).2.1]
  exact h

theorem disjoint_interp_blocks {i1 a1 i2 a2 : List Char} {ps qs : List (List Char)}
    (h : lower i1 ≠ lower i2) :
    (ps.map (fun p => mkTag i1 a1 p)).Disjoint (qs.map (fun p => mkTag i2 a2 p)) := by
  apply disjoint_of_field Tag.interpreter
  intro t1 h1 t2 h2
  rw [(mem_tag_block h1).1, (mem_tag_block h2).1]
  exact h

theorem disjoint_plat_blocks {i1 a1 i2 a2 : List Char} {ps qs : List (List Char)}
    (h : ∀ p ∈ ps, ∀ q ∈ qs, lower p ≠ lower q) :
    (ps.map (fun p => mkTag i1 a1 p)).Disjoint (qs.map (fun p => mkTag i2 a2 p)) := by
  apply disjoint_of_field Tag.platform
  intro t1 h1 t2 h2
  obtain ⟨p, hp, hp2⟩ := (mem_tag_block h1).2.2
  obtain ⟨q, hq, hq2⟩ := (mem_tag_block h2).2.2
  rw [hp2, hq2]
  exact h p hp q hq

theorem mem_rangeDownTo2 {k m : Nat} (hk : k ∈ rangeDownTo2 m) : 2 ≤ k ∧ k < m := by
  unfold rangeDownTo2 at hk
  rw [List.mem_reverse, List.mem_range'] at hk
  omega

theorem rangeDownTo2_nodup (m : Nat) : (rangeDownTo2 m).Nodup :=
  List.nodup_reverse.mpr (List.nodup_range' _ _)

theorem cpython_abi_none_eq (pv : Nat × Nat) (d m : Bool) (u : Nat) :
    cpython_abi none pv d m u =
      some (chars "cp" ++ natToChars pv.1 ++ natToChars pv.2 ++
        (if d then chars "d" else []) ++ (if m then chars "m" else []) ++
        (if u = 4 then chars "u" else [])) := rfl

theorem cpython_abi_some_eq (s : List Char) (pv : Nat × Nat) (d m : Bool) (u : Nat) :
    cpython_abi (some s) pv d m u =
      if !s.isEmpty then
        (match splitCharMax '-' 2 s with
        | [_, options, _] => some (chars "cp" ++ options)
        | _ => none)
      else cpython_abi none pv d m u := rfl

theorem cpython_abi_shape {soabi : Option (List Char)} {pv : Nat × Nat} {d m : Bool}
    {u : Nat} {abi : List Char} (h : cpython_abi soabi pv d m u = some abi) :
    ∃ r, abi = 'c' :: 'p' :: r := by
  rcases soabi with _ | s
  · rw [cpython_abi_none_eq] at h
    obtain rfl := (Option.some.injEq _ _).mp h
    exact ⟨_, rfl⟩
  · rw [cpython_abi_some_eq] at h
    by_cases he : !s.isEmpty
    · rw [if_pos he] at h
      rcases hsp : splitCharMax '-' 2 s with _ | ⟨a, _ | ⟨b, _ | ⟨c, _ | ⟨e, rest⟩⟩⟩⟩ <;>
          rw [hsp] at h <;> simp at h
      first
      | exact ⟨b, h.symm⟩
      | exact ⟨b, h⟩
    · rw [if_neg he, cpython_abi_none_eq] at h
      obtain rfl := (Option.some.injEq _ _).mp h
      exact ⟨_, rfl⟩

theorem cp_sequence_nodup (pv : Nat × Nat) (r : List Char)
    (platforms : List (List Char))
    (hnodup : (platforms.map lower).Nodup)
    (hany : chars "any" ∉ platforms.map lower) :
    (cpython_tags pv (cpython_interpreter pv) ('c' :: 'p' :: r) platforms ++
      independent_tags (cpython_interpreter pv) pv platforms).Nodup := by
  have hlowabi : lower ('c' :: 'p' :: r) = 'c' :: 'p' :: lower r := by
    simp only [lower, List.map_cons]
    rw [show lowerChar 'c' = 'c' from by decide, show lowerChar 'p' = 'p' from by decide]
  have habiA : lower ('c' :: 'p' :: r) ≠ lower (chars "abi3") := by
    rw [hlowabi, show lower (chars "abi3") = chars "abi3" from by decide]
    exact head_ne (by decide) _ _
  have habiN : lower ('c' :: 'p' :: r) ≠ lower (chars "none") := by
    rw [hlowabi, show lower (chars "none") = chars "none" from by decide]
    exact head_ne (by decide) _ _
  have habi3N : lower (chars "abi3") ≠ lower (chars "none") := by decide
  have hIfix : lower (cpython_interpreter pv) = cpython_interpreter pv := by
    unfold cpython_interpreter
    exact lower_fixes_cp pv.1 pv.2
  have hkfix : ∀ k : Nat, lower (chars "cp" ++ natToChars pv.1 ++ natToChars k) =
      chars "cp" ++ natToChars pv.1 ++ natToChars k := fun k => lower_fixes_cp pv.1 k
  have hIne : ∀ v ∈ py_interpreter_range pv, cpython_interpreter pv ≠ v := by
    intro v hv
    obtain ⟨w, rfl⟩ := pyrange_shape pv v hv
    rw [show cpython_interpreter pv =
        chars "cp" ++ (natToChars pv.1 ++ natToChars pv.2) from by
      simp [cpython_interpreter, List.append_assoc]]
    exact cp_form_ne_py_form _ _
  have hkne : ∀ k : Nat, ∀ v ∈ py_interpreter_range pv,
      chars "cp" ++ natToChars pv.1 ++ natToChars k ≠ v := by
    intro k v hv
    obtain ⟨w, rfl⟩ := pyrange_shape pv v hv
    rw [List.append_assoc]
    exact cp_form_ne_py_form _ _
  have hIk : ∀ k ∈ rangeDownTo2 pv.2,
      cpython_interpreter pv ≠ chars "cp" ++ natToChars pv.1 ++ natToChars k := by
    intro k hk heq
    have h2 := mem_rangeDownTo2 hk
    have h3 := append_natToChars_inj
      (show (chars "cp" ++ natToChars pv.1) ++ natToChars pv.2 =
        (chars "cp" ++ natToChars pv.1) ++ natToChars k from heq)
    omega
  have hpne : ∀ p ∈ platforms, lower p ≠ lower (chars "any") := by
    intro p hp heq
    rw [show lower (chars "any") = chars "any" from by decide] at heq
    exact hany (heq ▸ List.mem_map_of_mem lower hp)
  have hS : cpython_tags pv (cpython_interpreter pv) ('c' :: 'p' :: r) platforms ++
      independent_tags (cpython_interpreter pv) pv platforms =
      List.flatten
        [platforms.map (fun p => mkTag (cpython_interpreter pv) ('c' :: 'p' :: r) p),
         platforms.map (fun p => mkTag (cpython_interpreter pv) (chars "abi3") p),
         platforms.map (fun p => mkTag (cpython_interpreter pv) (chars "none") p),
         (rangeDownTo2 pv.2).flatMap (fun k => platforms.map (fun p =>
           mkTag (chars "cp" ++ natToChars pv.1 ++ natToChars k) (chars "abi3") p)),
         (py_interpreter_range pv).flatMap (fun v => platforms.map (fun p =>
           mkTag v (chars "none") p)),
         [mkTag (cpython_interpreter pv) (chars "none") (chars "any")],
         (py_interpreter_range pv).map (fun v =>
           mkTag v (chars "none") (chars "any"))] := by
    simp [cpython_tags, independent_tags, List.flatten, List.append_assoc]
  rw [hS, List.nodup_flatten]
  constructor
  · intro l hl
    simp only [List.mem_cons, List.not_mem_nil, or_false] at hl
    rcases hl with rfl | rfl | rfl | rfl | rfl | rfl | rfl
    · exact tag_block_nodup _ _ _ hnodup
    · exact tag_block_nodup _ _ _ hnodup
    · exact tag_block_nodup _ _ _ hnodup
    · rw [List.nodup_flatMap]
      refine ⟨fun k _ => tag_block_nodup _ _ _ hnodup, ?_⟩
      refine List.Pairwise.imp ?_ (rangeDownTo2_nodup pv.2)
      intro k k' hne
      refine disjoint_interp_blocks ?_
      rw [hkfix k, hkfix k']
      intro heq
      exact hne (append_natToChars_inj heq)
    · rw [List.nodup_flatMap]
      refine ⟨fun v _ => tag_block_nodup _ _ _ hnodup, ?_⟩
      refine List.Pairwise.imp_of_mem ?_ (pyrange_nodup pv)
      intro v v' hv hv' hne
      refine disjoint_interp_blocks ?_
      rw [pyrange_lower pv v hv, pyrange_lower pv v' hv']
      exact hne
    · simp
    · refine List.Nodup.map_on ?_ (pyrange_nodup pv)
      intro v hv v' hv' heq
      have h2 : lower v = lower v' := congrArg Tag.interpreter heq
      rwa [pyrange_lower pv v hv, pyrange_lower pv v' hv'] at h2
  · refine List.Pairwise.cons ?_ (List.Pairwise.cons ?_ (List.Pairwise.cons ?_
      (List.Pairwise.cons ?_ (List.Pairwise.cons ?_ (List.Pairwise.cons ?_
      (List.Pairwise.cons (fun b hb => absurd hb (List.not_mem_nil b))
        List.Pairwise.nil))))))
    · intro b hb
      simp only [List.mem_cons, List.not_mem_nil, or_false] at hb
      rcases hb with rfl | rfl | rfl | rfl | rfl | rfl
      · exact disjoint_abi_blocks habiA
      · exact disjoint_abi_blocks habiN
      · exact disjoint_flatMap_right (fun k _ => disjoint_abi_blocks habiA)
      · exact disjoint_flatMap_right (fun v _ => disjoint_abi_blocks habiN)
      · intro t h1 h6
        rw [List.mem_singleton] at h6
        have h2 := (mem_tag_block h1).2.1
        rw [h6] at h2
        exact habiN h2.symm
      · apply disjoint_of_field Tag.abi
        intro t1 h1 t2 h2
        obtain ⟨v, hv, rfl⟩ := List.mem_map.mp h2
        rw [(mem_tag_block h1).2.1]
        exact habiN
    · intro b hb
      simp only [List.mem_cons, List.not_mem_nil, or_false] at hb
      rcases hb with rfl | rfl | rfl | rfl | rfl
      · exact disjoint_abi_blocks habi3N
      · exact disjoint_flatMap_right (fun k hk => disjoint_interp_blocks
          (by rw [hIfix, hkfix k]; exact hIk k hk))
      · exact disjoint_flatMap_right (fun v _ => disjoint_abi_blocks habi3N)
      · intro t h1 h6
        rw [List.mem_singleton] at h6
        have h2 := (mem_tag_block h1).2.1
        rw [h6] at h2
        exact habi3N h2.symm
      · apply disjoint_of_field Tag.abi
        intro t1 h1 t2 h2
        obtain ⟨v, hv, rfl⟩ := List.mem_map.mp h2
        rw [(mem_tag_block h1).2.1]
        exact habi3N
    · intro b hb
      simp only [List.mem_cons, List.not_mem_nil, or_false] at hb
      rcases hb with rfl | rfl | rfl | rfl
      · exact disjoint_flatMap_right (fun k _ =>
          disjoint_abi_blocks habi3N.symm)
      · exact disjoint_flatMap_right (fun v hv => disjoint_interp_blocks
          (by rw [hIfix, pyrange_lower pv v hv]; exact hIne v hv))
      · apply disjoint_of_field Tag.platform
        intro t1 h1 t2 h2
        rw [List.mem_singleton] at h2
        obtain ⟨p, hp, hp2⟩ := (mem_tag_block h1).2.2
        rw [hp2, h2]
        exact hpne p hp
      · apply disjoint_of_field Tag.interpreter
        intro t1 h1 t2 h2
        obtain ⟨v, hv, rfl⟩ := List.mem_map.mp h2
        rw [(mem_tag_block h1).1, hIfix]
        show cpython_interpreter pv ≠ lower v
        rw [pyrange_lower pv v hv]
        exact hIne v hv
    · intro b hb
      simp only [List.mem_cons, List.not_mem_nil, or_false] at hb
      rcases hb with rfl | rfl | rfl
      · exact disjoint_flatMap_left (fun k hk => disjoint_flatMap_right
          (fun v hv => disjoint_interp_blocks
            (by rw [hkfix k, pyrange_lower pv v hv]; exact hkne k v hv)))
      · apply disjoint_flatMap_left
        intro k hk t h1 h6
        rw [List.mem_singleton] at h6
        have h2 := (mem_tag_block h1).2.1
        rw [h6] at h2
        exact habi3N h2.symm
      · apply disjoint_flatMap_left
        intro k hk
        apply disjoint_of_field Tag.abi
        intro t1 h1 t2 h2
        obtain ⟨v, hv, rfl⟩ := List.mem_map.mp h2
        rw [(mem_tag_block h1).2.1]
        exact habi3N
    · intro b hb
      simp only [List.mem_cons, List.not_mem_nil, or_false] at hb
      rcases hb with rfl | rfl
      · apply disjoint_flatMap_left
        intro v hv t h1 h6
        rw [List.mem_singleton] at h6
        have h2 := (mem_tag_block h1).1
        rw [h6] at h2
        have h3 : lower v = lower (cpython_interpreter pv) := h2.symm
        rw [pyrange_lower pv v hv, hIfix] at h3
        exact hIne v hv h3.symm
      · apply disjoint_flatMap_left
        intro v hv
        apply disjoint_of_field Tag.platform
        intro t1 h1 t2 h2
        obtain ⟨v2, hv2, rfl⟩ := List.mem_map.mp h2
        obtain ⟨p, hp, hp2⟩ := (mem_tag_block h1).2.2
        rw [hp2]
        exact hpne p hp
    · intro b hb
      simp only [List.mem_cons, List.not_mem_nil, or_false] at hb
      rcases hb with rfl
      apply disjoint_of_field Tag.interpreter
      intro t1 h1 t2 h2
      rw [List.mem_singleton] at h1
      obtain ⟨v, hv, rfl⟩ := List.mem_map.mp h2
      rw [h1]
      show lower (cpython_interpreter pv) ≠ lower v
      rw [hIfix, pyrange_lower pv v hv]
      exact hIne v hv

theorem independent_tags_getLast (interpreter : List Char) (pv : Nat × Nat)
    (platforms : List (List Char)) (hminor : 1 ≤ pv.2) :
    (independent_tags interpreter pv platforms).getLast? =
      some (mkTag (chars "py" ++ natToChars pv.1 ++ chars "0")
        (chars "none") (chars "any")) := by
  obtain ⟨m', hm⟩ : ∃ m', pv.2 = m' + 1 := ⟨pv.2 - 1, by omega⟩
  have hlast : (py_interpreter_range pv).getLast? =
      some (chars "py" ++ natToChars pv.1 ++ natToChars 0) := by
    unfold py_interpreter_range
    rw [show (chars "py" ++ natToChars pv.1 ++ natToChars pv.2) ::
        (chars "py" ++ natToChars pv.1) ::
        (List.range pv.2).reverse.map (fun minor =>
          chars "py" ++ natToChars pv.1 ++ natToChars minor) =
        [chars "py" ++ natToChars pv.1 ++ natToChars pv.2,
         chars "py" ++ natToChars pv.1] ++
        (List.range pv.2).reverse.map (fun minor =>
          chars "py" ++ natToChars pv.1 ++ natToChars minor) from rfl,
      List.getLast?_append, List.getLast?_map, List.getLast?_reverse, hm,
      List.range_succ_eq_map]
    simp
  have hIT2 : ((py_interpreter_range pv).map (fun version =>
      mkTag version (chars "none") (chars "any"))).getLast? =
      some (mkTag (chars "py" ++ natToChars pv.1 ++ chars "0")
        (chars "none") (chars "any")) := by
    rw [List.getLast?_map, hlast]
    rfl
  unfold independent_tags
  rw [List.getLast?_append, hIT2]
  rfl

/-- C2 counterexample: for the PyPy family with no SOABI (so the generic ABI
is `"none"`) and minor version 0, the generated sequence repeats
`Tag(interpreter, "none", platform)` and its last element is
`py3-none-any`, not `py30-none-any`, refuting the claim as stated. -/
theorem c2_counterexample :
    (sys_tags (chars "pp") (3, 0) none false false 2 7 3 none
      [chars "plat"]).isSome = true ∧
    ¬ ((sys_tags (chars "pp") (3, 0) none false false 2 7 3 none
      [chars "plat"]).getD []).Nodup ∧
    ((sys_tags (chars "pp") (3, 0) none false false 2 7 3 none
      [chars "plat"]).getD []).getLast? ≠
      some (mkTag (chars "py" ++ natToChars 3 ++ chars "0")
        (chars "none") (chars "any")) := by
  decide

/-- C2 amended: for a CPython-family environment whose minor version is at
least 1 and whose platform list is non-empty, duplicate-free after
lowercasing and free of `"any"`, every sequence `sys_tags` produces ends
with `Tag("py{major}0", "none", "any")` and contains no repeated Tag.
(For other families the claim fails: see the counterexample, where PyPy with
a `"none"` ABI duplicates tags and minor version 0 drops the `py{major}0`
entry.) -/
theorem c2_cpython_sequence_invariants
    (pv : Nat × Nat) (soabi : Option (List Char)) (d m : Bool) (u : Nat)
    (pypy_major pypy_minor : Nat) (nodot : Option (List Char))
    (platforms : List (List Char)) (tags : List Tag)
    (hminor : 1 ≤ pv.2) (hne : platforms ≠ [])
    (hnodup : (platforms.map lower).Nodup)
    (hany : chars "any" ∉ platforms.map lower)
    (htags : sys_tags (chars "cp") pv soabi d m u pypy_major pypy_minor nodot
      platforms = some tags) :
    tags.getLast? = some (mkTag (chars "py" ++ natToChars pv.1 ++ chars "0")
      (chars "none") (chars "any")) ∧ tags.Nodup := by
  unfold sys_tags at htags
  rw [if_pos rfl] at htags
  rcases habi : cpython_abi soabi pv d m u with _ | abi
  · simp only [habi] at htags
    exact absurd htags (by simp)
  · simp only [habi, Option.some.injEq] at htags
    subst htags
    obtain ⟨r, rfl⟩ := cpython_abi_shape habi
    constructor
    · rw [List.getLast?_append, independent_tags_getLast _ _ _ hminor]
      rfl
    · exact cp_sequence_nodup pv r platforms hnodup hany

/-- C2 witness: the amended invariants at a concrete CPython environment. -/
theorem c2_witness :
    ((sys_tags (chars "cp") (3, 1) none false true 2 0 0 none
      [chars "plat"]).getD []).getLast? =
      some (mkTag (chars "py" ++ natToChars 3 ++ chars "0")
        (chars "none") (chars "any")) ∧
    ((sys_tags (chars "cp") (3, 1) none false true 2 0 0 none
      [chars "plat"]).getD []).Nodup :=
  c2_cpython_sequence_invariants (3, 1) none false true 2 0 0 none
    [chars "plat"] _ (by decide) (by decide) (by decide) (by decide) (by decide)
